import Mathlib

/-!
Verification of the standalone OCR inference engine
(src/plugins/kha-white-ocr-plugin/snippet/inference_onnx.py).

The Python source is embedded shallowly:
* token ids are Int (Python ints; np.argmax results are non-negative),
* pixel values are Nat (8-bit samples) and tensors hold Rat values,
* the two ONNX sessions are opaque pure functions supplied as parameters,
* Python dicts are modelled as functions into Option.
-/

namespace Bubblefish

/-- Whitespace predicate modelling Python str.isspace, as used by str.split()
and str.strip(): ASCII whitespace plus the common Unicode space characters. -/
def isPySpace (c : Char) : Bool :=
  c = ' ' || c = '\t' || c = '\n' || c = '\r' || c = '\x0b' || c = '\x0c' ||
  c = '\x1c' || c = '\x1d' || c = '\x1e' || c = '\x1f' || c = '\x85' ||
  c = '\xa0' || c = ' ' || (' ' ≤ c && c ≤ ' ') ||
  c = ' ' || c = ' ' || c = ' ' || c = ' ' || c = '　'

/-- Character class of the repeated-dot pattern [・.]{2,} in MangaOCR.post_process. -/
def isDotChar (c : Char) : Bool :=
  c = '・' || c = '.'

/-- Step 1 of MangaOCR.post_process: "".join(text.split()), i.e. every
whitespace character is removed and the remaining runs are concatenated. -/
def removeSpaces (l : List Char) : List Char :=
  l.filter (fun c => !isPySpace c)

/-- Step 2 of MangaOCR.post_process: text.replace of the ellipsis character
by three periods. -/
def replaceEllipsis : List Char → List Char
  | [] => []
  | c :: cs =>
    if c = '…' then '.' :: '.' :: '.' :: replaceEllipsis cs
    else c :: replaceEllipsis cs

/-- Replacement applied to one maximal run of dot-class characters: a run of
length at least two matches the regex and is rewritten to periods of the same
length; a single character does not match and is kept as written. -/
def emitRun (run : List Char) : List Char :=
  if 2 ≤ run.length then List.replicate run.length '.' else run

/-- Step 3 of MangaOCR.post_process: re.sub of every maximal run matching
[・.]{2,} by periods of the run's length.  The first argument accumulates the
current run of dot-class characters in reverse order. -/
def collapseAux : List Char → List Char → List Char
  | run, [] => emitRun run.reverse
  | run, c :: cs =>
    if isDotChar c then collapseAux (c :: run) cs
    else emitRun run.reverse ++ c :: collapseAux [] cs

def collapseDots (l : List Char) : List Char :=
  collapseAux [] l

/-- Continuation of collapseDots after a maximal dot run: the breaking
character is kept and scanning restarts on the remainder. -/
def collapseRest : List Char → List Char
  | [] => []
  | c :: cs => c :: collapseAux [] cs

/-- MangaOCR.post_process: remove whitespace, replace the ellipsis character,
collapse repeated dots, in this fixed order. -/
def post_process (s : String) : String :=
  ⟨collapseDots (replaceEllipsis (removeSpaces s.toList))⟩

/-- Python str.strip(): drop leading and trailing whitespace characters. -/
def pyStrip (s : String) : String :=
  ⟨((s.toList.dropWhile isPySpace).reverse.dropWhile isPySpace).reverse⟩

/-- Python dict assignment d[k] = v on a dict modelled as a function. -/
def dictInsert {α β : Type} [DecidableEq α] (d : α → Option β) (k : α) (v : β) :
    α → Option β :=
  fun x => if x = k then some v else d x

def emptyDict {α β : Type} : α → Option β := fun _ => none

/-- The enumerate loop of Tokenizer.__init__ carried out from line index k:
for each line, token = line.strip(); vocab[token] = idx; id_to_token[idx] = token. -/
def tokenizerFold (k : Nat) (d : (String → Option Nat) × (Nat → Option String)) :
    List String → (String → Option Nat) × (Nat → Option String)
  | [] => d
  | line :: rest =>
    tokenizerFold (k + 1)
      (dictInsert d.1 (pyStrip line) k, dictInsert d.2 k (pyStrip line)) rest

/-- The vocab and id_to_token dicts built by Tokenizer.__init__ from the
lines of vocab.txt. -/
def buildTokenizerMaps (lines : List String) :
    (String → Option Nat) × (Nat → Option String) :=
  tokenizerFold 0 (emptyDict, emptyDict) lines

/-- Index of the last occurrence of a token in a list: the value that survives
when a Python dict is filled with the indices in order. -/
def lastOcc : List String → String → Option Nat
  | [], _ => none
  | x :: xs, t =>
    match lastOcc xs t with
    | some i => some (i + 1)
    | none => if x = t then some 0 else none

/-- The state of a constructed Tokenizer that decode reads: id_to_token as the
dense list of stripped vocabulary lines (index = id), and the set of the five
special-token strings from the config. -/
structure Tokenizer where
  id_to_token : List String
  special_token_set : List String

/-- The membership test token_id in self.id_to_token together with the lookup:
after construction the dict's keys are exactly 0..N-1, so a negative or
too-large id yields none. -/
def lookupToken (tokens : List String) (id : Int) : Option String :=
  if id < 0 then none else tokens.get? id.toNat

/-- One iteration of the loop in Tokenizer.decode: the token appended for an
id, or none when the id is out of range or a skipped special token. -/
def keptToken (tk : Tokenizer) (skip_special_tokens : Bool) (id : Int) :
    Option String :=
  match lookupToken tk.id_to_token id with
  | none => none
  | some t =>
    if skip_special_tokens ∧ t ∈ tk.special_token_set then none else some t

/-- Concatenation with no separator: "".join(tokens). -/
def concatChars (ts : List String) : List Char :=
  ts.foldr (fun t acc => t.toList ++ acc) []

/-- Python text.replace for the fixed pattern: delete each left-to-right
non-overlapping occurrence of "##". -/
def removeMarker : List Char → List Char
  | [] => []
  | '#' :: '#' :: rest => removeMarker rest
  | c :: rest => c :: removeMarker rest

/-- Tokenizer.decode: keep the in-range ids' tokens (skipping special tokens
when asked), join without separator, delete the subword markers. -/
def decode (tk : Tokenizer) (token_ids : List Int) (skip_special_tokens : Bool) :
    String :=
  ⟨removeMarker (concatChars (token_ids.filterMap (keptToken tk skip_special_tokens)))⟩

/-- The id is a key of the id_to_token dict (the vocabulary id range). -/
def inVocabRange (tk : Tokenizer) (id : Int) : Prop :=
  0 ≤ id ∧ id.toNat < tk.id_to_token.length

instance (tk : Tokenizer) (id : Int) : Decidable (inVocabRange tk id) :=
  inferInstanceAs (Decidable (_ ∧ _))

/-- The token of an in-range id. -/
def tokenAt (tk : Tokenizer) (id : Int) : String :=
  tk.id_to_token.getD id.toNat ""

/-- np.argmax over one axis: the first index attaining the maximum value. -/
def npArgmax : List Int → Nat
  | [] => 0
  | x :: xs =>
    let j := npArgmax xs
    match xs.get? j with
    | none => 0
    | some y => if x < y then j + 1 else 0

/-- The logits slice logits[0, -1, :]: the final sequence position of the
single batch row (the decoder output is modelled with the batch axis already
projected away, as rows indexed by sequence position). -/
def lastRow (logits : List (List Int)) : List Int :=
  logits.getLast?.getD []

/-- The model block of config.json. -/
structure ModelConfig where
  decoder_start_token_id : Int
  eos_token_id : Int
  max_length : Nat

/-- The preprocessor block of config.json. -/
structure PreprocessorConfig where
  image_size : Nat × Nat
  rescale_factor : Rat
  image_mean : List Rat
  image_std : List Rat

/-- A decoded PIL image: dimensions, channel count (the color mode), and an
8-bit sample for each coordinate and channel. -/
structure PILImage where
  width : Nat
  height : Nat
  channels : Nat
  px : Nat → Nat → Nat → Nat

/-- Models PIL Image.convert to single-channel luminance (the ITU-R 601-2
integer formula applied to the first three channels). -/
def convertL (img : PILImage) : PILImage :=
  { width := img.width, height := img.height, channels := 1,
    px := fun x y _ =>
      if img.channels = 1 then img.px x y 0
      else (299 * img.px x y 0 + 587 * img.px x y 1 + 114 * img.px x y 2) / 1000 }

/-- Models PIL Image.convert to three-channel color: a single-channel image is
replicated across the channels, extra channels beyond three are dropped. -/
def convertRGB (img : PILImage) : PILImage :=
  { width := img.width, height := img.height, channels := 3,
    px := fun x y c => if img.channels = 1 then img.px x y 0 else img.px x y c }

/-- Models the shape contract of PIL Image.resize((w, h), BILINEAR): the
result is a w-by-h image over the same channels.  The exact bilinear kernel is
library behavior outside this repository and is opaque to every claim; a
coordinate-scaling sampler stands in for it. -/
def resize (img : PILImage) (w h : Nat) : PILImage :=
  { width := w, height := h, channels := img.channels,
    px := fun x y c => img.px (x * img.width / w) (y * img.height / h) c }

/-- np.array(image, dtype float): the height-by-width-by-channels nested list
of the image's samples. -/
def toArray (img : PILImage) : List (List (List Rat)) :=
  (List.range img.height).map (fun y =>
    (List.range img.width).map (fun x =>
      (List.range img.channels).map (fun c => (img.px x y c : Rat))))

/-- The element dtype recorded on a produced array. -/
inductive DType
  | float32
deriving DecidableEq

/-- A rank-4 numpy array: dtype tag plus nested-list data. -/
structure NpArray4 where
  dtype : DType
  data : List (List (List (List Rat)))

/-- np.transpose(a, (2, 0, 1)) on a rectangular height-width-channels array. -/
def transposeHWC (a : List (List (List Rat))) : List (List (List Rat)) :=
  (List.range (((a.headD []).headD []).length)).map (fun c =>
    a.map (fun row => row.map (fun p => p.getD c 0)))

/-- Per-pixel broadcast of (x - image_mean) / image_std over the channel axis. -/
def normalizePixel (mean std : List Rat) (p : List Rat) : List Rat :=
  (p.zip (mean.zip std)).map (fun q => (q.1 - q.2.1) / q.2.2)

/-- ImageProcessor.process: force three channels, resize to the configured
size, rescale, normalize per channel, transpose HWC to CHW, add the batch
axis, with dtype float32. -/
def process (cfg : PreprocessorConfig) (image : PILImage) : NpArray4 :=
  let image := if image.channels = 3 then image else convertRGB image
  let image := resize image cfg.image_size.1 cfg.image_size.2
  let a := toArray image
  let a := a.map (fun row => row.map (fun p => p.map (fun v => v * cfg.rescale_factor)))
  let a := a.map (fun row => row.map (normalizePixel cfg.image_mean cfg.image_std))
  { dtype := DType.float32, data := [transposeHWC a] }

/-- A constructed MangaOCR engine over an opaque hidden-state type: the
configs, the tokenizer state, and the two ONNX sessions as fixed pure
functions.  The decoder takes input_ids and attention_mask and returns the
logits rows by sequence position. -/
structure Engine (H : Type) where
  pcfg : PreprocessorConfig
  cfg : ModelConfig
  tokenizer : Tokenizer
  encoder : NpArray4 → H
  decoder : H → List Int → List Int → List (List Int)

/-- One decode-loop step: run the decoder session on the sequence so far with
an all-ones attention mask and take the greedy argmax of the final position's
logits (int(np.argmax(logits[0, -1, :]))). -/
def decodeStep {H : Type} (e : Engine H) (hid : H) (gen : List Int) : Int :=
  Int.ofNat (npArgmax (lastRow (e.decoder hid gen (List.replicate gen.length 1))))

/-- The decode loop of MangaOCR.__call__: up to the fuel many iterations,
append the greedy id, stop early as soon as the appended id is eos_token_id. -/
def genLoop {H : Type} (e : Engine H) (hid : H) : Nat → List Int → List Int
  | 0, gen => gen
  | n + 1, gen =>
    let next := decodeStep e hid gen
    if next = e.cfg.eos_token_id then gen ++ [next]
    else genLoop e hid n (gen ++ [next])

/-- Token generation of MangaOCR.__call__: the loop for step in
range(max_length) starting from [decoder_start_token_id]. -/
def generate {H : Type} (e : Engine H) (hid : H) : List Int :=
  genLoop e hid e.cfg.max_length [e.cfg.decoder_start_token_id]

/-- MangaOCR.__call__: grayscale round trip, preprocessing, one encoder run,
the decode loop, tokenizer decode of the ids after the start token with
special tokens skipped, post-processing. -/
def infer {H : Type} (e : Engine H) (img : PILImage) : String :=
  let image := convertRGB (convertL img)
  let pixel_values := process e.pcfg image
  let hid := e.encoder pixel_values
  let generated_ids := generate e hid
  post_process (decode e.tokenizer (generated_ids.drop 1) true)

/-- A two-token vocabulary whose id 0 is the pad special token. -/
def tkW : Tokenizer :=
  { id_to_token := ["[PAD]", "あ"], special_token_set := ["[PAD]"] }

/-- A one-pixel preprocessor configuration. -/
def pcfgW : PreprocessorConfig :=
  { image_size := (1, 1), rescale_factor := 1 / 255,
    image_mean := [1/2, 1/2, 1/2], image_std := [1/2, 1/2, 1/2] }

/-- A one-pixel black image. -/
def imgW : PILImage :=
  { width := 1, height := 1, channels := 3, px := fun _ _ _ => 0 }

/-- A concrete engine whose decoder session always returns the single-logit
row [[5]], so the greedy id is always 0 and eos_token_id = 1 is never chosen. -/
def engineW : Engine Unit :=
  { pcfg := pcfgW,
    cfg := { decoder_start_token_id := 2, eos_token_id := 1, max_length := 1 },
    tokenizer := tkW,
    encoder := fun _ => (),
    decoder := fun _ _ _ => [[5]] }

/-- Concrete vocabulary lines with surrounding whitespace, a whitespace-only
line, and a duplicate stripped token. -/
def linesW : List String :=
  ["  a\n", " \n", "a"]

/-- The nested list is a rectangular rank-3 tensor of the given dimensions. -/
def IsTensor3 (a : List (List (List Rat))) (d1 d2 d3 : Nat) : Prop :=
  a.length = d1 ∧ ∀ r ∈ a, r.length = d2 ∧ ∀ p ∈ r, p.length = d3

/-- The nested list is a rectangular rank-4 tensor of the given dimensions. -/
def IsTensor4 (a : List (List (List (List Rat)))) (d0 d1 d2 d3 : Nat) : Prop :=
  a.length = d0 ∧ ∀ b ∈ a, IsTensor3 b d1 d2 d3

instance (a : List (List (List Rat))) (d1 d2 d3 : Nat) :
    Decidable (IsTensor3 a d1 d2 d3) :=
  inferInstanceAs (Decidable (_ ∧ _))

instance (a : List (List (List (List Rat)))) (d0 d1 d2 d3 : Nat) :
    Decidable (IsTensor4 a d0 d1 d2 d3) :=
  inferInstanceAs (Decidable (_ ∧ _))

/-! Theorems. -/

/-- C1: each iteration of the decode loop runs the decoder session on the
sequence generated so far (with an all-ones attention mask of the same shape),
takes the logits at the final sequence position, selects the id of maximum
value by greedy argmax, appends that id, and stops iterating before reaching
max_length as soon as the appended id equals eos_token_id. -/
theorem decode_loop_iteration {H : Type} (e : Engine H) (hid : H) (n : Nat)
    (gen : List Int) :
    generate e hid = genLoop e hid e.cfg.max_length [e.cfg.decoder_start_token_id] ∧
    decodeStep e hid gen =
      Int.ofNat (npArgmax (lastRow (e.decoder hid gen (List.replicate gen.length 1)))) ∧
    genLoop e hid (n + 1) gen =
      (if decodeStep e hid gen = e.cfg.eos_token_id
       then gen ++ [decodeStep e hid gen]
       else genLoop e hid n (gen ++ [decodeStep e hid gen])) :=
  ⟨rfl, rfl, rfl⟩

theorem genLoop_length_le {H : Type} (e : Engine H) (hid : H) :
    ∀ (n : Nat) (gen : List Int), (genLoop e hid n gen).length ≤ gen.length + n := by
  intro n
  induction n with
  | zero => intro gen; simp [genLoop]
  | succ n ih =>
    intro gen
    simp only [genLoop]
    split
    · simp
    · calc (genLoop e hid n (gen ++ [decodeStep e hid gen])).length
          ≤ (gen ++ [decodeStep e hid gen]).length + n := ih _
        _ = gen.length + (n + 1) := by simp [Nat.add_assoc, Nat.add_comm 1 n]

theorem genLoop_head {H : Type} (e : Engine H) (hid : H) :
    ∀ (n : Nat) (g : Int) (gs : List Int),
      (genLoop e hid n (g :: gs)).head? = some g := by
  intro n
  induction n with
  | zero => intro g gs; simp [genLoop]
  | succ n ih =>
    intro g gs
    simp only [genLoop]
    split
    · simp
    · rw [List.cons_append]
      exact ih g (gs ++ [decodeStep e hid (g :: gs)])

/-- C2: with a positive max_length, the generated sequence starts with the
single start token, grows to at most max_length + 1 elements, and the id
sequence handed to the tokenizer after dropping the leading start token has
length at most max_length. -/
theorem decode_loop_bounds {H : Type} (e : Engine H) (hid : H)
    (hpos : 0 < e.cfg.max_length) :
    (generate e hid).head? = some e.cfg.decoder_start_token_id ∧
    (generate e hid).length ≤ e.cfg.max_length + 1 ∧
    ((generate e hid).drop 1).length ≤ e.cfg.max_length := by
  refine ⟨genLoop_head e hid _ _ _, ?_, ?_⟩
  · have h := genLoop_length_le e hid e.cfg.max_length [e.cfg.decoder_start_token_id]
    simpa [generate, Nat.add_comm] using h
  · have h := genLoop_length_le e hid e.cfg.max_length [e.cfg.decoder_start_token_id]
    simp only [generate, List.length_drop] at h ⊢
    simp at h
    omega

theorem decode_loop_bounds_witness :
    0 < engineW.cfg.max_length ∧
    ((generate engineW ()).head? = some engineW.cfg.decoder_start_token_id ∧
     (generate engineW ()).length ≤ engineW.cfg.max_length + 1 ∧
     ((generate engineW ()).drop 1).length ≤ engineW.cfg.max_length) :=
  ⟨by decide, decode_loop_bounds engineW () (by decide)⟩

/-- C3: with fixed artifacts (the configs, the tokenizer state, and both
sessions as fixed pure functions) and a fixed input image, two calls of the
full inference operation return identical strings; in this embedding the
whole pipeline is a pure function, so the two evaluations coincide. -/
theorem infer_deterministic {H : Type} (e : Engine H) (img : PILImage) :
    infer e img = infer e img := rfl

/-- C6: post_process is total and is exactly the fixed-order composition of
whitespace removal, ellipsis replacement and length-preserving dot-run
collapsing, and it maps the four reference inputs as the spec states. -/
theorem post_process_spec :
    (∀ s : String, post_process s =
      ⟨collapseDots (replaceEllipsis (removeSpaces s.toList))⟩) ∧
    post_process "…" = "..." ∧
    post_process " a b " = "ab" ∧
    post_process "・・・" = "..." ∧
    post_process "a..b" = "a..b" :=
  ⟨fun _ => rfl, by decide, by decide, by decide, by decide⟩

theorem genLoop_length_eq {H : Type} (e : Engine H) (hid : H)
    (h : ∀ gen : List Int, decodeStep e hid gen ≠ e.cfg.eos_token_id) :
    ∀ (n : Nat) (gen : List Int), (genLoop e hid n gen).length = gen.length + n := by
  intro n
  induction n with
  | zero => intro gen; simp [genLoop]
  | succ n ih =>
    intro gen
    simp only [genLoop]
    rw [if_neg (h gen), ih]
    simp [Nat.add_assoc, Nat.add_comm 1 n]

/-- C7, counterexample to the claim as stated: a decoder session that never
produces eos_token_id as the argmax, for which the loop does run exactly
max_length iterations but the call returns the empty string, not a non-empty
one (the only generated id is the skipped pad special token). -/
theorem length_limit_counterexample :
    (∀ gen : List Int, decodeStep engineW () gen ≠ engineW.cfg.eos_token_id) ∧
    (generate engineW ()).length = engineW.cfg.max_length + 1 ∧
    infer engineW imgW = "" :=
  ⟨fun _ => (by decide : (0 : Int) ≠ 1), by decide, by decide⟩

/-- C7, amended: if the decoder session never produces eos_token_id as the
argmax, the decode loop runs exactly max_length iterations (the generated
sequence gains exactly max_length ids beyond the start token) and the call
returns a string — possibly empty — rather than an error. -/
theorem length_limit_reached {H : Type} (e : Engine H) (hid : H)
    (h : ∀ gen : List Int, decodeStep e hid gen ≠ e.cfg.eos_token_id) :
    (generate e hid).length = e.cfg.max_length + 1 := by
  have hl := genLoop_length_eq e hid h e.cfg.max_length [e.cfg.decoder_start_token_id]
  simpa [generate, Nat.add_comm] using hl

theorem length_limit_reached_witness :
    (generate engineW ()).length = engineW.cfg.max_length + 1 :=
  length_limit_reached engineW () (fun _ => (by decide : (0 : Int) ≠ 1))

theorem keptToken_eq_none_of_not_inRange (tk : Tokenizer) (skip : Bool)
    (id : Int) (h : ¬ inVocabRange tk id) : keptToken tk skip id = none := by
  unfold keptToken lookupToken
  unfold inVocabRange at h
  push_neg at h
  by_cases h0 : id < 0
  · simp [h0]
  · have h1 : tk.id_to_token.length ≤ id.toNat := h (not_lt.mp h0)
    simp [h0, List.getElem?_eq_none h1]

theorem keptToken_eq_some_of_inRange (tk : Tokenizer) (skip : Bool)
    (id : Int) (h : inVocabRange tk id) :
    keptToken tk skip id =
      if skip ∧ tokenAt tk id ∈ tk.special_token_set then none
      else some (tokenAt tk id) := by
  obtain ⟨h0, h1⟩ := h
  unfold keptToken lookupToken tokenAt
  rw [if_neg (not_lt.mpr h0)]
  simp [List.getD_eq_getElem?_getD, List.getElem?_eq_getElem h1]

/-- C5: any id outside the vocabulary's id range contributes nothing to the
output and decode never fails because of it (decode is a total function in
this embedding): the result equals decode of the list with the out-of-range
ids removed. -/
theorem decode_out_of_range_skipped (tk : Tokenizer) (ids : List Int)
    (skip : Bool) :
    decode tk ids skip =
      decode tk (ids.filter (fun id => decide (inVocabRange tk id))) skip := by
  unfold decode
  have h : ids.filterMap (keptToken tk skip) =
      (ids.filter (fun id => decide (inVocabRange tk id))).filterMap
        (keptToken tk skip) := by
    induction ids with
    | nil => rfl
    | cons id rest ih =>
      by_cases h : inVocabRange tk id
      · simp only [List.filter_cons, List.filterMap_cons, h, decide_True,
          if_true, ih]
      · simp [List.filter_cons, List.filterMap_cons, h,
          keptToken_eq_none_of_not_inRange tk skip id h, ih]
  rw [h]

/-- C4: decode with skip_special = true returns the in-order separator-free
concatenation of the tokens of the in-range non-special ids, with every
left-to-right occurrence of the subword marker "##" deleted from the
concatenated result; consequently no token between token boundaries of the
concatenation is a configured special-token string. -/
theorem decode_skip_special (tk : Tokenizer) (ids : List Int) :
    decode tk ids true =
      ⟨removeMarker (concatChars (ids.filterMap (keptToken tk true)))⟩ ∧
    ids.filterMap (keptToken tk true) =
      (ids.filter (fun id =>
        decide (inVocabRange tk id ∧ tokenAt tk id ∉ tk.special_token_set))).map
        (tokenAt tk) ∧
    ∀ t ∈ ids.filterMap (keptToken tk true), t ∉ tk.special_token_set := by
  have hmap : ids.filterMap (keptToken tk true) =
      (ids.filter (fun id =>
        decide (inVocabRange tk id ∧ tokenAt tk id ∉ tk.special_token_set))).map
        (tokenAt tk) := by
    induction ids with
    | nil => rfl
    | cons id rest ih =>
      by_cases h : inVocabRange tk id
      · rw [List.filterMap_cons, keptToken_eq_some_of_inRange tk true id h]
        by_cases hs : tokenAt tk id ∈ tk.special_token_set
        · simp [List.filter_cons, h, hs, ih]
        · simp [List.filter_cons, h, hs, ih]
      · rw [List.filterMap_cons, keptToken_eq_none_of_not_inRange tk true id h]
        have hnc : ¬ (inVocabRange tk id ∧ tokenAt tk id ∉ tk.special_token_set) :=
          fun hc => h hc.1
        simp [List.filter_cons, hnc, ih]
  refine ⟨rfl, hmap, ?_⟩
  intro t ht
  rw [hmap] at ht
  obtain ⟨id, hid, rfl⟩ := List.mem_map.mp ht
  have := List.mem_filter.mp hid
  have hd := of_decide_eq_true this.2
  exact hd.2

theorem decode_skip_special_witness :
    decode tkW [0, 1, 5, -1] true = "あ" ∧
    "あ" ∉ tkW.special_token_set :=
  ⟨by decide, (decode_skip_special tkW [0, 1, 5, -1]).2.2 "あ" (by decide)⟩

theorem toArray_isTensor3 (img : PILImage) :
    IsTensor3 (toArray img) img.height img.width img.channels := by
  refine ⟨by simp [toArray], ?_⟩
  intro r hr
  simp only [toArray, List.mem_map] at hr
  obtain ⟨y, _, rfl⟩ := hr
  refine ⟨by simp, ?_⟩
  intro p hp
  simp only [List.mem_map] at hp
  obtain ⟨x, _, rfl⟩ := hp
  simp

theorem isTensor3_map_pixels (f : List Rat → List Rat) (c c' : Nat)
    (hf : ∀ p : List Rat, p.length = c → (f p).length = c')
    (a : List (List (List Rat))) (d1 d2 : Nat) (h : IsTensor3 a d1 d2 c) :
    IsTensor3 (a.map (fun row => row.map f)) d1 d2 c' := by
  obtain ⟨h1, h2⟩ := h
  refine ⟨by simpa using h1, ?_⟩
  intro r hr
  simp only [List.mem_map] at hr
  obtain ⟨row, hrow, rfl⟩ := hr
  obtain ⟨hl, hp⟩ := h2 row hrow
  refine ⟨by simpa using hl, ?_⟩
  intro p hpm
  simp only [List.mem_map] at hpm
  obtain ⟨q, hq, rfl⟩ := hpm
  exact hf q (hp q hq)

theorem transposeHWC_isTensor3 (a : List (List (List Rat))) (d1 d2 : Nat)
    (h : IsTensor3 a d1 d2 3) (h1 : 0 < d1) (h2 : 0 < d2) :
    IsTensor3 (transposeHWC a) 3 d1 d2 := by
  obtain ⟨ha, hrows⟩ := h
  obtain ⟨r, a', rfl⟩ : ∃ r a', a = r :: a' := by
    cases a with
    | nil => simp at ha; omega
    | cons r a' => exact ⟨r, a', rfl⟩
  obtain ⟨hr, hpx⟩ := hrows r (List.mem_cons_self r a')
  obtain ⟨p, r', rfl⟩ : ∃ p r', r = p :: r' := by
    cases r with
    | nil => simp at hr; omega
    | cons p r' => exact ⟨p, r', rfl⟩
  have hC : p.length = 3 := hpx p (List.mem_cons_self p r')
  refine ⟨by simp [transposeHWC, hC], ?_⟩
  intro b hb
  simp only [transposeHWC, List.mem_map] at hb
  obtain ⟨c, _, rfl⟩ := hb
  refine ⟨by simpa using ha, ?_⟩
  intro q hq
  simp only [List.mem_map] at hq
  obtain ⟨row0, hrow0, rfl⟩ := hq
  simpa using (hrows row0 hrow0).1

/-- C8: for every decoded input image, regardless of its dimensions or color
mode, process returns a float32 channel-first tensor of exactly shape
[1, 3, H, W] where (W, H) is the configured image_size (the configured mean
and std have the three per-channel entries and the configured size is
positive). -/
theorem process_output_shape (cfg : PreprocessorConfig) (img : PILImage)
    (hm : cfg.image_mean.length = 3) (hs : cfg.image_std.length = 3)
    (hw : 0 < cfg.image_size.1) (hh : 0 < cfg.image_size.2) :
    (process cfg img).dtype = DType.float32 ∧
    IsTensor4 (process cfg img).data 1 3 cfg.image_size.2 cfg.image_size.1 := by
  refine ⟨rfl, ?_⟩
  have hch : (if img.channels = 3 then img else convertRGB img).channels = 3 := by
    split
    · assumption
    · rfl
  have h0 : IsTensor3
      (toArray (resize (if img.channels = 3 then img else convertRGB img)
        cfg.image_size.1 cfg.image_size.2))
      cfg.image_size.2 cfg.image_size.1 3 := by
    have h := toArray_isTensor3
      (resize (if img.channels = 3 then img else convertRGB img)
        cfg.image_size.1 cfg.image_size.2)
    simpa [resize, hch] using h
  have h1 := isTensor3_map_pixels (fun p => p.map (fun v => v * cfg.rescale_factor))
    3 3 (fun p hp => by simpa using hp) _ _ _ h0
  have h2 := isTensor3_map_pixels (normalizePixel cfg.image_mean cfg.image_std)
    3 3 (fun p hp => by simp [normalizePixel, hp, hm, hs]) _ _ _ h1
  have h3 := transposeHWC_isTensor3 _ _ _ h2 hh hw
  simp only [process]
  exact ⟨rfl, fun b hb => by
    simp only [List.mem_singleton] at hb
    exact hb ▸ h3⟩

theorem process_output_shape_witness :
    pcfgW.image_mean.length = 3 ∧ pcfgW.image_std.length = 3 ∧
    0 < pcfgW.image_size.1 ∧ 0 < pcfgW.image_size.2 ∧
    ((process pcfgW imgW).dtype = DType.float32 ∧
     IsTensor4 (process pcfgW imgW).data 1 3 pcfgW.image_size.2 pcfgW.image_size.1) :=
  ⟨by decide, by decide, by decide, by decide,
    process_output_shape pcfgW imgW (by decide) (by decide) (by decide) (by decide)⟩

theorem tokenizerFold_snd : ∀ (lines : List String) (k : Nat)
    (d : (String → Option Nat) × (Nat → Option String)) (j : Nat),
    (tokenizerFold k d lines).2 j =
      match (if k ≤ j then (lines.map pyStrip)[j - k]? else none) with
      | some t => some t
      | none => d.2 j := by
  intro lines
  induction lines with
  | nil =>
    intro k d j
    have hnone : (if k ≤ j then (([] : List String).map pyStrip)[j - k]? else none) =
        (none : Option String) := by
      split <;> simp
    rw [show tokenizerFold k d [] = d from rfl, hnone]
  | cons x xs ih =>
    intro k d j
    rw [show tokenizerFold k d (x :: xs) =
      tokenizerFold (k + 1)
        (dictInsert d.1 (pyStrip x) k, dictInsert d.2 k (pyStrip x)) xs from rfl]
    rw [ih]
    rcases Nat.lt_trichotomy j k with hlt | heq | hgt
    · rw [if_neg (by omega), if_neg (by omega)]
      simp [dictInsert, Nat.ne_of_lt hlt]
    · subst heq
      rw [if_neg (by omega), if_pos (le_refl j)]
      simp [dictInsert]
    · rw [if_pos (by omega), if_pos (by omega)]
      have h1 : j - k = (j - (k + 1)) + 1 := by omega
      rw [h1]
      simp only [List.map_cons, List.getElem?_cons_succ]
      cases (xs.map pyStrip)[j - (k + 1)]? with
      | some t => rfl
      | none =>
        simp only [dictInsert]
        rw [if_neg (by omega : ¬ j = k)]

theorem tokenizerFold_fst : ∀ (lines : List String) (k : Nat)
    (d : (String → Option Nat) × (Nat → Option String)) (t : String),
    (tokenizerFold k d lines).1 t =
      match lastOcc (lines.map pyStrip) t with
      | some i => some (k + i)
      | none => d.1 t := by
  intro lines
  induction lines with
  | nil => intro k d t; rfl
  | cons x xs ih =>
    intro k d t
    rw [show tokenizerFold k d (x :: xs) =
      tokenizerFold (k + 1)
        (dictInsert d.1 (pyStrip x) k, dictInsert d.2 k (pyStrip x)) xs from rfl]
    rw [ih]
    simp only [List.map_cons, lastOcc]
    cases hlo : lastOcc (xs.map pyStrip) t with
    | some i => simp [Nat.add_assoc, Nat.add_comm 1 i]
    | none =>
      simp only [dictInsert]
      by_cases he : pyStrip x = t
      · rw [if_pos he.symm, if_pos he]
        simp
      · rw [if_neg (fun hh => he hh.symm), if_neg he]

/-- C10: tokenizer construction strips all leading and trailing whitespace
from each vocabulary line, so the token stored for id i is the stripped line
i (and no id beyond the line count is mapped); a whitespace-only line yields
the empty-string token; the id-to-token map stays total over 0..N-1 even when
stripped lines duplicate, and the token-to-id map then keeps the last line's
index. -/
theorem tokenizer_construction (lines : List String) :
    (∀ i : Nat, (buildTokenizerMaps lines).2 i = (lines.map pyStrip)[i]?) ∧
    (∀ s : String, (∀ c ∈ s.toList, isPySpace c = true) → pyStrip s = "") ∧
    (∀ t : String, (buildTokenizerMaps lines).1 t = lastOcc (lines.map pyStrip) t) := by
  refine ⟨?_, ?_, ?_⟩
  · intro i
    rw [show buildTokenizerMaps lines = tokenizerFold 0 (emptyDict, emptyDict) lines from rfl]
    rw [tokenizerFold_snd]
    rw [if_pos (Nat.zero_le i)]
    simp only [Nat.sub_zero]
    cases (lines.map pyStrip)[i]? with
    | some t => rfl
    | none => rfl
  · intro s hws
    have hd : s.toList.dropWhile isPySpace = [] :=
      List.dropWhile_eq_nil_iff.mpr (fun c hc => hws c hc)
    unfold pyStrip
    rw [hd]
    rfl
  · intro t
    rw [show buildTokenizerMaps lines = tokenizerFold 0 (emptyDict, emptyDict) lines from rfl]
    rw [tokenizerFold_fst]
    cases hlo : lastOcc (lines.map pyStrip) t with
    | some i => simp
    | none => rfl

theorem tokenizer_construction_witness :
    (buildTokenizerMaps linesW).2 1 = some "" ∧
    (buildTokenizerMaps linesW).1 "a" = some 2 ∧
    pyStrip " \n" = "" :=
  ⟨Eq.trans ((tokenizer_construction linesW).1 1) (by decide),
   Eq.trans ((tokenizer_construction linesW).2.2 "a") (by decide),
   (tokenizer_construction linesW).2.1 " \n" (by decide)⟩

theorem collapseAux_eq : ∀ (l run : List Char),
    collapseAux run l =
      emitRun (run.reverse ++ l.takeWhile isDotChar) ++
        collapseRest (l.dropWhile isDotChar) := by
  intro l
  induction l with
  | nil => intro run; simp [collapseAux, collapseRest]
  | cons c cs ih =>
    intro run
    by_cases hd : isDotChar c
    · rw [show collapseAux run (c :: cs) = collapseAux (c :: run) cs from by
        simp [collapseAux, hd]]
      rw [ih (c :: run)]
      simp [List.takeWhile_cons, List.dropWhile_cons, hd, List.append_assoc]
    · rw [show collapseAux run (c :: cs) =
        emitRun run.reverse ++ c :: collapseAux [] cs from by
          simp [collapseAux, hd]]
      simp [List.takeWhile_cons, List.dropWhile_cons, hd, collapseRest]

theorem collapseDots_eq (l : List Char) :
    collapseDots l =
      emitRun (l.takeWhile isDotChar) ++ collapseRest (l.dropWhile isDotChar) := by
  rw [show collapseDots l = collapseAux [] l from rfl, collapseAux_eq]
  rfl

theorem collapseDots_cons_not (c : Char) (cs : List Char)
    (h : isDotChar c = false) : collapseDots (c :: cs) = c :: collapseDots cs := by
  rw [show collapseDots (c :: cs) = collapseAux [] (c :: cs) from rfl]
  simp [collapseAux, h, emitRun, collapseDots]

theorem mem_emitRun (x : Char) (s : List Char) (h : x ∈ emitRun s) :
    x ∈ s ∨ x = '.' := by
  unfold emitRun at h
  split at h
  · exact Or.inr (List.eq_of_mem_replicate h)
  · exact Or.inl h

theorem emitRun_length (s : List Char) : (emitRun s).length = s.length := by
  unfold emitRun
  split <;> simp

theorem emitRun_idem (s : List Char) : emitRun (emitRun s) = emitRun s := by
  by_cases h : 2 ≤ s.length
  · simp [emitRun, h]
  · simp [emitRun, h]

theorem emitRun_all_dot (s : List Char) (h : ∀ x ∈ s, isDotChar x = true) :
    ∀ x ∈ emitRun s, isDotChar x = true := by
  intro x hx
  rcases mem_emitRun x s hx with h1 | rfl
  · exact h x h1
  · decide

theorem mem_collapseAux : ∀ (l run : List Char) (x : Char),
    x ∈ collapseAux run l → x ∈ run ∨ x ∈ l ∨ x = '.' := by
  intro l
  induction l with
  | nil =>
    intro run x h
    rw [show collapseAux run [] = emitRun run.reverse from rfl] at h
    rcases mem_emitRun x run.reverse h with h1 | h2
    · exact Or.inl (List.mem_reverse.mp h1)
    · exact Or.inr (Or.inr h2)
  | cons c cs ih =>
    intro run x h
    by_cases hd : isDotChar c
    · rw [show collapseAux run (c :: cs) = collapseAux (c :: run) cs from by
        simp [collapseAux, hd]] at h
      rcases ih (c :: run) x h with h1 | h2 | h3
      · rcases List.mem_cons.mp h1 with rfl | h4
        · exact Or.inr (Or.inl (List.mem_cons_self x cs))
        · exact Or.inl h4
      · exact Or.inr (Or.inl (List.mem_cons_of_mem c h2))
      · exact Or.inr (Or.inr h3)
    · rw [show collapseAux run (c :: cs) =
        emitRun run.reverse ++ c :: collapseAux [] cs from by
          simp [collapseAux, hd]] at h
      rcases List.mem_append.mp h with h1 | h2
      · rcases mem_emitRun x run.reverse h1 with h3 | h4
        · exact Or.inl (List.mem_reverse.mp h3)
        · exact Or.inr (Or.inr h4)
      · rcases List.mem_cons.mp h2 with rfl | h3
        · exact Or.inr (Or.inl (List.mem_cons_self x cs))
        · rcases ih [] x h3 with h4 | h5 | h6
          · simp at h4
          · exact Or.inr (Or.inl (List.mem_cons_of_mem c h5))
          · exact Or.inr (Or.inr h6)

theorem mem_collapseDots (l : List Char) (x : Char) (h : x ∈ collapseDots l) :
    x ∈ l ∨ x = '.' := by
  rcases mem_collapseAux l [] x h with h1 | h2 | h3
  · simp at h1
  · exact Or.inl h2
  · exact Or.inr h3

theorem mem_replaceEllipsis : ∀ (l : List Char) (x : Char),
    x ∈ replaceEllipsis l → (x ∈ l ∨ x = '.') ∧ x ≠ '…' := by
  intro l
  induction l with
  | nil => intro x h; simp [replaceEllipsis] at h
  | cons c cs ih =>
    intro x h
    by_cases hc : c = '…'
    · rw [show replaceEllipsis (c :: cs) =
        '.' :: '.' :: '.' :: replaceEllipsis cs from by simp [replaceEllipsis, hc]] at h
      rcases List.mem_cons.mp h with rfl | h1
      · exact ⟨Or.inr rfl, by decide⟩
      rcases List.mem_cons.mp h1 with rfl | h2
      · exact ⟨Or.inr rfl, by decide⟩
      rcases List.mem_cons.mp h2 with rfl | h3
      · exact ⟨Or.inr rfl, by decide⟩
      rcases ih x h3 with ⟨h4 | h5, h6⟩
      · exact ⟨Or.inl (List.mem_cons_of_mem c h4), h6⟩
      · exact ⟨Or.inr h5, h6⟩
    · rw [show replaceEllipsis (c :: cs) = c :: replaceEllipsis cs from by
        simp [replaceEllipsis, hc]] at h
      rcases List.mem_cons.mp h with rfl | h1
      · exact ⟨Or.inl (List.mem_cons_self x cs), hc⟩
      rcases ih x h1 with ⟨h4 | h5, h6⟩
      · exact ⟨Or.inl (List.mem_cons_of_mem c h4), h6⟩
      · exact ⟨Or.inr h5, h6⟩

theorem replaceEllipsis_eq_self : ∀ (l : List Char),
    (∀ x ∈ l, x ≠ '…') → replaceEllipsis l = l := by
  intro l
  induction l with
  | nil => intro _; rfl
  | cons c cs ih =>
    intro h
    have hc : ¬ c = '…' := h c (List.mem_cons_self c cs)
    rw [show replaceEllipsis (c :: cs) = c :: replaceEllipsis cs from by
      simp [replaceEllipsis, hc]]
    rw [ih (fun x hx => h x (List.mem_cons_of_mem c hx))]

theorem removeSpaces_no_space (l : List Char) (x : Char)
    (h : x ∈ removeSpaces l) : isPySpace x = false := by
  unfold removeSpaces at h
  have := (List.mem_filter.mp h).2
  simpa using this

theorem removeSpaces_eq_self (l : List Char)
    (h : ∀ x ∈ l, isPySpace x = false) : removeSpaces l = l :=
  List.filter_eq_self.mpr (fun a ha => by simp [h a ha])

theorem takeWhile_append_of_all (p : Char → Bool) :
    ∀ (s y : List Char), (∀ x ∈ s, p x = true) →
      (s ++ y).takeWhile p = s ++ y.takeWhile p := by
  intro s
  induction s with
  | nil => intro y _; rfl
  | cons c cs ih =>
    intro y h
    have hc : p c = true := h c (List.mem_cons_self c cs)
    simp only [List.cons_append, List.takeWhile_cons, hc, if_true]
    rw [ih y (fun x hx => h x (List.mem_cons_of_mem c hx))]

theorem dropWhile_append_of_all (p : Char → Bool) :
    ∀ (s y : List Char), (∀ x ∈ s, p x = true) →
      (s ++ y).dropWhile p = y.dropWhile p := by
  intro s
  induction s with
  | nil => intro y _; rfl
  | cons c cs ih =>
    intro y h
    have hc : p c = true := h c (List.mem_cons_self c cs)
    simp only [List.cons_append, List.dropWhile_cons, hc, if_true]
    exact ih y (fun x hx => h x (List.mem_cons_of_mem c hx))

theorem dropWhile_head_false (p : Char → Bool) :
    ∀ (l : List Char) (d : Char) (ds : List Char),
      l.dropWhile p = d :: ds → p d = false := by
  intro l
  induction l with
  | nil => intro d ds h; simp [List.dropWhile] at h
  | cons x xs ih =>
    intro d ds h
    rw [List.dropWhile_cons] at h
    split at h
    · exact ih d ds h
    · rename_i hx
      cases h
      simpa using hx

theorem collapseDots_idem_aux : ∀ (n : Nat) (l : List Char), l.length ≤ n →
    collapseDots (collapseDots l) = collapseDots l := by
  intro n
  induction n with
  | zero =>
    intro l hl
    rw [List.eq_nil_of_length_eq_zero (Nat.le_zero.mp hl)]
    rfl
  | succ n ih =>
    intro l hl
    match l with
    | [] => rfl
    | c :: cs =>
      have hcs : cs.length ≤ n := by
        have := hl
        simp only [List.length_cons] at this
        omega
      by_cases hd : isDotChar c
      · have hstep : collapseDots (c :: cs) =
            emitRun (c :: cs.takeWhile isDotChar) ++
              collapseRest (cs.dropWhile isDotChar) := by
          rw [collapseDots_eq]
          simp [List.takeWhile_cons, List.dropWhile_cons, hd]
        have hE_dot : ∀ x ∈ emitRun (c :: cs.takeWhile isDotChar), isDotChar x = true := by
          apply emitRun_all_dot
          intro x hx
          rcases List.mem_cons.mp hx with rfl | hx2
          · exact hd
          · exact List.mem_takeWhile_imp hx2
        cases hr : cs.dropWhile isDotChar with
        | nil =>
          rw [hstep, hr]
          simp only [collapseRest, List.append_nil]
          rw [collapseDots_eq]
          rw [show emitRun (c :: cs.takeWhile isDotChar) =
            emitRun (c :: cs.takeWhile isDotChar) ++ [] from (List.append_nil _).symm]
          rw [takeWhile_append_of_all isDotChar _ [] hE_dot,
            dropWhile_append_of_all isDotChar _ [] hE_dot]
          simp [collapseRest, emitRun_idem]
        | cons d ds =>
          have hdd : isDotChar d = false := dropWhile_head_false isDotChar cs d ds hr
          have hds : ds.length ≤ n := by
            have hsub : (cs.dropWhile isDotChar).length ≤ cs.length :=
              (List.dropWhile_sublist isDotChar).length_le
            rw [hr] at hsub
            simp only [List.length_cons] at hsub
            omega
          rw [hstep, hr]
          simp only [collapseRest]
          rw [collapseDots_eq]
          rw [takeWhile_append_of_all isDotChar _ _ hE_dot,
            dropWhile_append_of_all isDotChar _ _ hE_dot]
          simp only [List.takeWhile_cons, List.dropWhile_cons, hdd,
            Bool.false_eq_true, if_false, List.append_nil]
          rw [emitRun_idem]
          simp only [collapseRest]
          rw [show collapseAux [] (collapseAux [] ds) =
            collapseDots (collapseDots ds) from rfl]
          rw [ih ds hds]
          rfl
      · have hdf : isDotChar c = false := by simpa using hd
        rw [collapseDots_cons_not c cs hdf]
        rw [collapseDots_cons_not c (collapseDots cs) hdf]
        rw [ih cs hcs]

theorem collapseDots_idem (l : List Char) :
    collapseDots (collapseDots l) = collapseDots l :=
  collapseDots_idem_aux l.length l (le_refl _)

/-- C9: post-processing normalization is idempotent: applying post_process a
second time leaves the result unchanged. -/
theorem post_process_idempotent (s : String) :
    post_process (post_process s) = post_process s := by
  unfold post_process
  rw [show String.toList ⟨collapseDots (replaceEllipsis (removeSpaces s.toList))⟩ =
    collapseDots (replaceEllipsis (removeSpaces s.toList)) from rfl]
  have h1 : removeSpaces (collapseDots (replaceEllipsis (removeSpaces s.toList))) =
      collapseDots (replaceEllipsis (removeSpaces s.toList)) := by
    apply removeSpaces_eq_self
    intro x hx
    rcases mem_collapseDots _ x hx with h | rfl
    · rcases (mem_replaceEllipsis _ x h).1 with h2 | rfl
      · exact removeSpaces_no_space _ x h2
      · decide
    · decide
  rw [h1]
  have h2 : replaceEllipsis (collapseDots (replaceEllipsis (removeSpaces s.toList))) =
      collapseDots (replaceEllipsis (removeSpaces s.toList)) := by
    apply replaceEllipsis_eq_self
    intro x hx
    rcases mem_collapseDots _ x hx with h | rfl
    · exact (mem_replaceEllipsis _ x h).2
    · decide
  rw [h2, collapseDots_idem]

end Bubblefish
